import Mathlib

/-!
Verification of the structured Graph-RAG retrieval core.

This file gives a shallow embedding of the retrieval logic of the repository
(files graph_rag_structured.py and app.py) and proves properties of it.

The graph store is modelled as a finite list of property nodes and directed
typed relationships.  The Cypher queries issued by the code are embedded by
their Neo4j semantics:

* a variable length pattern such as the one in the queries, written
  (n)-[*1..]->(m), matches every directed path of length at least one that
  does not repeat a relationship (relationship uniqueness of Cypher paths);
  UNWIND of the relationships of every such path followed by DISTINCT
  therefore yields the set of relationships lying on some such path;
* toLower is case folding of the id attribute;
* UNION deduplicates the combined rows of both query parts;
* ORDER BY output sorts the returned rows lexicographically.

Machine strings are Lean strings; all definitions are executable.
-/

namespace GraphRAG

/-! ### A kernel computable lexicographic order on strings

The built in decision procedure for the String order does not reduce in the
kernel, so we use an equivalent comparison on the underlying character lists
and prove it equal to the standard order on String. -/

def leChars : List Char → List Char → Bool
  | [], _ => true
  | _ :: _, [] => false
  | a :: as, b :: bs => if a < b then true else if b < a then false else leChars as bs

/-- The sorting relation used for ORDER BY output: proved below (in
theorem leChars_iff) to coincide with the standard linear order on
String. -/
abbrev strLeB (a b : String) : Prop := leChars a.data b.data = true

instance : DecidableRel strLeB :=
  fun a b => inferInstanceAs (Decidable (leChars a.data b.data = true))

/-- Case folding, modelling the Cypher toLower function and the Python
lower method.  Equal to String.toLower, but written so that it reduces in
the kernel. -/
def lowerStr (s : String) : String := ⟨s.data.map Char.toLower⟩

/-- Replacement of spaces by underscores, modelling the Python expression
entity.lower().replace(' ', '_') used to build the output file name. -/
def underscoreSpaces (s : String) : String :=
  ⟨s.data.map (fun c => if c = ' ' then '_' else c)⟩

/-! ### The data model

A property graph node with its store assigned element id and its id
attribute.  The ingestion pipeline of the repository always writes an id
attribute, so the id is modelled as a plain string. -/

structure GNode where
  eid : Nat
  id : String
deriving DecidableEq, Repr

/-- A directed typed relationship of the graph store.  The rid field is the
store assigned element id of the relationship: two parallel relationships
with equal endpoints and type are distinct relationship instances. -/
structure Rel where
  rid : Nat
  src : GNode
  typ : String
  tgt : GNode
deriving DecidableEq, Repr

/-- The graph store state: a finite list of nodes and of relationships. -/
structure Graph where
  nodes : List GNode
  rels : List Rel
deriving DecidableEq, Repr

/-! ### Node resolution

MATCH (n) WHERE toLower(n.id) = toLower(entity) -/

def matchesEntity (e : String) (n : GNode) : Bool :=
  decide (lowerStr n.id = lowerStr e)

/-- The anchor set of an entity name: every node whose id attribute matches
the entity case insensitively. -/
def anchors (g : Graph) (e : String) : List GNode :=
  g.nodes.filter (matchesEntity e)

/-! ### Traversal

OPTIONAL MATCH pOut = (n)-[*1..]->(m) UNWIND relationships(pOut) AS relOut
WITH DISTINCT relOut AS rel.

outRelsFrom g fuel cur used enumerates, with enough fuel, every
relationship lying on some forward path that starts at cur, repeats no
relationship, and avoids the relationships in used.  Since such a path
never repeats a relationship, fuel = number of relationships of the graph
is always enough. -/

def outRelsFrom (g : Graph) : Nat → GNode → List Rel → List Rel
  | 0, _, _ => []
  | fuel + 1, cur, used =>
    (g.rels.filter (fun r => decide (r.src = cur) && !decide (r ∈ used))).flatMap
      (fun r => r :: outRelsFrom g fuel r.tgt (r :: used))

/-- Backward analogue of outRelsFrom, for the second UNION part,
OPTIONAL MATCH pIn = (m)-[*1..]->(n). -/
def inRelsFrom (g : Graph) : Nat → GNode → List Rel → List Rel
  | 0, _, _ => []
  | fuel + 1, cur, used =>
    (g.rels.filter (fun r => decide (r.tgt = cur) && !decide (r ∈ used))).flatMap
      (fun r => r :: inRelsFrom g fuel r.src (r :: used))

/-- The deduplicated outbound relationship set of an entity: WITH DISTINCT
relOut AS rel over all anchors. -/
def outRels (g : Graph) (e : String) : List Rel :=
  ((anchors g e).flatMap (fun n => outRelsFrom g g.rels.length n [])).dedup

/-- The deduplicated inbound relationship set of an entity. -/
def inRels (g : Graph) (e : String) : List Rel :=
  ((anchors g e).flatMap (fun n => inRelsFrom g g.rels.length n [])).dedup

/-- RETURN startNode(rel).id + ' -[' + type(rel) + ']-> ' + endNode(rel).id -/
def renderRel (r : Rel) : String :=
  r.src.id ++ " -[" ++ r.typ ++ "]-> " ++ r.tgt.id

/-- The rows of the relationship query of structured_retriever: the two
UNION parts, deduplicated as rows (UNION semantics) and sorted by the
rendered string (ORDER BY output). -/
def relationLines (g : Graph) (e : String) : List String :=
  ((((outRels g e).map renderRel) ++ ((inRels g e).map renderRel)).dedup).insertionSort strLeB

/-! ### The grandparent probe

MATCH (n) WHERE toLower(n.id) = toLower(entity)
OPTIONAL MATCH (n)-[*2]->(grand)
RETURN DISTINCT grand.id AS grandparent_id LIMIT 1 -/

/-- Nodes reachable from n by a path of exactly two distinct forward
relationships. -/
def twoHopTargets (g : Graph) (n : GNode) : List GNode :=
  (g.rels.filter (fun r => decide (r.src = n))).flatMap (fun r1 =>
    (g.rels.filter (fun r2 => decide (r2.src = r1.tgt) && !decide (r2 = r1))).map (·.tgt))

/-- The grandparent_id column of the probe query: one null row per anchor
without a two hop target (OPTIONAL MATCH), deduplicated (DISTINCT). -/
def grandparents (g : Graph) (e : String) : List (Option String) :=
  ((anchors g e).flatMap (fun n =>
    let gs := twoHopTargets g n
    if gs.isEmpty then [none] else gs.map (fun m => some m.id))).dedup

/-- The line appended for the grandparent probe.  Python tests the first
returned row with gp and gp[0].get("grandparent_id"), so a missing row, a
null id and an empty string id (falsy in Python) all yield the negative
line. -/
def grandparentLine (g : Graph) (e : String) : String :=
  match (grandparents g e).head? with
  | some (some s) =>
    if s = "" then "No grandparent found for " ++ e ++ "\n"
    else "Grandparent id of " ++ e ++ ": " ++ s ++ "\n"
  | _ => "No grandparent found for " ++ e ++ "\n"

/-! ### Per entity text assembly of structured_retriever -/

/-- The part of the per entity text coming from the relationship query:
newline joined rows when the response is nonempty, the no match line
otherwise. -/
def relSection (g : Graph) (e : String) : String :=
  let response := relationLines g e
  if response.isEmpty then "No relationships found for entity: " ++ e ++ "\n"
  else String.intercalate "\n" response ++ "\n"

/-- The full contribution of one entity to the structured_retriever
result string. -/
def entityText (g : Graph) (e : String) : String :=
  relSection g e ++ grandparentLine g e

/-- The textual retrieval of structured_retriever for an already extracted
entity list: result is accumulated entity by entity in input order. -/
def structuredRetrieverText (g : Graph) (names : List String) : String :=
  names.foldl (fun acc e => acc ++ entityText g e) ""

/-! ### The index form retrieval of get_graph_data in app.py

The Cypher query of get_graph_data is the same UNION traversal, but it
returns the rows (startNode(rel), type(rel), endNode(rel)); UNION
deduplicates these row triples, with node identity being store identity. -/

/-- The row produced for one relationship by the get_graph_data query. -/
def relTriple (r : Rel) : GNode × String × GNode := (r.src, r.typ, r.tgt)

/-- The deduplicated row list of the get_graph_data query for one entity. -/
def graphRows (g : Graph) (e : String) : List (GNode × String × GNode) :=
  ((outRels g e).map relTriple ++ (inRels g e).map relTriple).dedup

/-- One entry of the relationships list built by get_graph_data. -/
structure VizRel where
  source : Nat
  target : Nat
  caption : String
deriving DecidableEq, Repr

/-- The loop state of get_graph_data: the node_map dictionary (as an
association list in insertion order), the running idx counter and the
accumulated relationships list. -/
structure GDState where
  node_map : List (String × Nat)
  idx : Nat
  relationships : List VizRel
deriving DecidableEq, Repr

/-- Python: if key not in node_map: node_map[key] = idx; idx += 1 -/
def addKey (st : GDState) (k : String) : GDState :=
  if (st.node_map.lookup k).isSome then st
  else { st with node_map := st.node_map ++ [(k, st.idx)], idx := st.idx + 1 }

/-- Processing of one query row by the get_graph_data loop body.  The
node keys are the id attributes of the endpoint nodes. -/
def processRow (st : GDState) (row : GNode × String × GNode) : GDState :=
  let sId := row.1.id
  let tId := row.2.2.id
  let st1 := addKey st sId
  let st2 := addKey st1 tId
  { st2 with relationships := st2.relationships ++
      [⟨(st2.node_map.lookup sId).getD 0, (st2.node_map.lookup tId).getD 0, row.2.1⟩] }

def processRows (rows : List (GNode × String × GNode)) (st : GDState) : GDState :=
  rows.foldl processRow st

/-- The state get_graph_data starts from: empty node_map, idx = 0, empty
relationships list. -/
def initState : GDState := ⟨[], 0, []⟩

/-- The RetrievalResult of get_graph_data for one entity. -/
def getGraphData (g : Graph) (e : String) : GDState :=
  processRows (graphRows g e) initState

/-- Modelled from the spec: the repository has no multi entity index form
retrieval (get_graph_data takes a single entity), so the contract
retrieve(entities) of the spec is modelled as merging the per entity query
rows into one shared node index and relationship list, entity by entity,
in input order. -/
def retrieveIndex (g : Graph) (names : List String) : GDState :=
  processRows (names.flatMap (graphRows g)) initState

/-! ### The app pipeline of app.py -/

/-- Python str.strip with no argument removes leading and trailing
whitespace; ASCII whitespace characters are modelled. -/
def isPySpace (c : Char) : Bool :=
  c == ' ' || c == '\t' || c == '\n' || c == '\r' || c == Char.ofNat 11 || c == Char.ofNat 12

def pyStrip (s : String) : String :=
  ⟨((s.data.dropWhile isPySpace).reverse.dropWhile isPySpace).reverse⟩

/-- The part of generate_graph_visualization after the primary entity is
chosen: query the store, bail out with an error status when the node map
is empty, otherwise report the written html file and a success status.
Returns (filename, status message, open button visibility). -/
def vizForEntity (g : Graph) (entity : String) : Option String × String × Bool :=
  let res := getGraphData g entity
  if res.node_map.isEmpty then
    (none, "❌ No graph data found for entity: " ++ entity, false)
  else
    (some (underscoreSpaces (lowerStr entity) ++ "_graph.html"),
     "✅ Graph generated for entity: **" ++ entity ++ "** | Nodes: " ++
       toString res.node_map.length ++ " | Relationships: " ++
       toString res.relationships.length,
     true)

/-- generate_graph_visualization: extraction errors are caught by the
surrounding try and turned into an error status; on success the primary
entity is the first extracted name, with the literal fallback name Youtube
when the extractor returns an empty list.  The extractor is passed as a
function returning Except, modelling a call that can raise. -/
def generateGraphVisualization (ext : String → Except String (List String))
    (g : Graph) (q : String) : Option String × String × Bool :=
  match ext q with
  | .error e => (none, "❌ Error generating graph: " ++ e, false)
  | .ok names =>
    let entity := match names with
      | [] => "Youtube"
      | n :: _ => n
    vizForEntity g entity

/-- structured_retriever: the entity extraction call is not guarded by any
try, so an extraction error propagates to the caller; on success the per
entity texts are accumulated over all extracted entities. -/
def structuredRetrieverE (ext : String → Except String (List String))
    (g : Graph) (q : String) : Except String String :=
  match ext q with
  | .error e => .error e
  | .ok entities => .ok (structuredRetrieverText g entities)

/-- The final_data string built by the retriever function. -/
def finalData (sd : String) : String :=
  "Structured data:\n" ++ sd ++ "\n    "

/-- The RAG chain: context retrieval followed by answer synthesis.  The
synthesizer is a function of (context, question) that can fail. -/
def chainE (ext : String → Except String (List String))
    (synth : String → String → Except String String)
    (g : Graph) (q : String) : Except String String :=
  match structuredRetrieverE ext g q with
  | .error e => .error e
  | .ok sd => synth (finalData sd) q

/-- The six outputs of process_unified_query: chat history, question box
content, graph filename, graph status message, open button visibility and
debug panel text (debug mode is modelled in its default off state). -/
structure UQOutput where
  chat : List (String × String)
  questionBox : String
  filename : Option String
  status : String
  buttonVisible : Bool
  debugOut : String
deriving DecidableEq, Repr

/-- process_unified_query: blank questions are rejected before any model
or store call; a chain error is appended to the chat and returned as the
status; otherwise the answer is appended and the visualization runs. -/
def processUnifiedQuery (ext : String → Except String (List String))
    (synth : String → String → Except String String)
    (g : Graph) (q : String) (hist : List (String × String)) : UQOutput :=
  if pyStrip q = "" then
    ⟨hist, "", none, "⚠️ Please enter a question", false, ""⟩
  else
    match chainE ext synth g q with
    | .error e =>
      ⟨hist ++ [(q, "❌ Error: " ++ e)], "", none, "❌ Error: " ++ e, false, ""⟩
    | .ok ans =>
      let viz := generateGraphVisualization ext g q
      ⟨hist ++ [(q, ans)], "", viz.1, viz.2.1, viz.2.2, ""⟩

/-! ### Walks

Specification device for the traversal theorems: a directed walk in the
graph, recorded as the list of relationships followed in order. -/

inductive Walk (g : Graph) : GNode → GNode → List Rel → Prop
  | nil (n : GNode) : Walk g n n []
  | cons {a b : GNode} {r : Rel} {rs : List Rel} (hmem : r ∈ g.rels) (hsrc : r.src = a)
      (htail : Walk g r.tgt b rs) : Walk g a b (r :: rs)

/-! ### Invariants and renumbering for the index form -/

/-- Structural invariant of the get_graph_data loop state: the idx counter
equals the size of the node map, the stored indices are exactly 0..n-1 in
insertion order, and the keys are distinct. -/
def Inv (st : GDState) : Prop :=
  st.idx = st.node_map.length ∧
  st.node_map.map Prod.snd = List.range st.node_map.length ∧
  (st.node_map.map Prod.fst).Nodup

/-- Mutual referencing of node map and relationship list: every index of a
relationship entry has a node map entry, and every node map entry is
referenced by some relationship entry. -/
def Referenced (st : GDState) : Prop :=
  (∀ r ∈ st.relationships,
    (∃ k, (k, r.source) ∈ st.node_map) ∧ ∃ k, (k, r.target) ∈ st.node_map) ∧
  ∀ p ∈ st.node_map, ∃ r ∈ st.relationships, r.source = p.2 ∨ r.target = p.2

/-- Renumbering of one relationship entry along an index translation. -/
def renum (φ : List Nat) (r : VizRel) : VizRel :=
  ⟨φ.getD r.source 0, φ.getD r.target 0, r.caption⟩

/-- All indices of the entries of l lie below the length of φ. -/
def BoundedBy (φ : List Nat) (l : List VizRel) : Prop :=
  ∀ r ∈ l, r.source < φ.length ∧ r.target < φ.length

/-- Correspondence between a run of the get_graph_data loop started in stA
and the same run started in stB: the translation φ sends every node index
of stB to the index of the same key in stA. -/
def Corr (stA stB : GDState) (φ : List Nat) : Prop :=
  φ.length = stB.node_map.length ∧
  ∀ k i, stB.node_map.lookup k = some i → stA.node_map.lookup k = some (φ.getD i 0)

/-! ### Concrete instances used in the example theorems -/

def nA : GNode := ⟨0, "A"⟩
def nB : GNode := ⟨1, "B"⟩
def nC : GNode := ⟨2, "C"⟩
def rAB : Rel := ⟨0, nA, "WORKS_FOR", nB⟩
def rBC : Rel := ⟨1, nB, "LOCATED_IN", nC⟩

/-- The graph of the end to end scenario: A works for B, B located in C. -/
def gABC : Graph := ⟨[nA, nB, nC], [rAB, rBC]⟩

def acmeN : GNode := ⟨0, "Acme"⟩
def acmeX : GNode := ⟨1, "X"⟩

/-- A graph with one node Acme (plus a neighbour) for the case folding
example. -/
def gAcme : Graph := ⟨[acmeN, acmeX], [⟨0, acmeN, "R", acmeX⟩]⟩

/-- A graph whose only node Ghost is isolated. -/
def gIso : Graph := ⟨[⟨0, "Ghost"⟩], []⟩

/-- The empty graph store. -/
def gEmpty : Graph := ⟨[], []⟩

def cycA : GNode := ⟨0, "A"⟩
def cycB : GNode := ⟨1, "B"⟩
def rc0 : Rel := ⟨0, cycA, "R", cycB⟩
def rc1 : Rel := ⟨1, cycB, "S", cycA⟩

/-- A two node directed cycle. -/
def gCyc : Graph := ⟨[cycA, cycB], [rc0, rc1]⟩

def extFail : String → Except String (List String) := fun _ => .error "boom"

def extAB : String → Except String (List String) := fun _ => .ok ["A", "B"]

def extEmpty : String → Except String (List String) := fun _ => .ok []

def synthFail : String → String → Except String String := fun _ _ => .error "synth down"

def synthEcho : String → String → Except String String := fun c _ => .ok c

/-! ## Theorems -/

/-! ### The sorting relation agrees with the linear order on String -/

theorem leChars_iff_not_lex (as bs : List Char) :
    leChars as bs = true ↔ ¬ List.Lex (· < ·) bs as := by
  induction as generalizing bs with
  | nil =>
    constructor
    · intro _ h
      cases h
    · intro _
      rfl
  | cons a as ih =>
    cases bs with
    | nil =>
      constructor
      · intro h
        simp [leChars] at h
      · intro h
        exact absurd List.Lex.nil h
    | cons b bs =>
      by_cases hab : a < b
      · have hba : ¬ b < a := lt_asymm hab
        constructor
        · intro _ h
          cases h with
          | cons h2 => exact absurd hab (lt_irrefl a)
          | rel h3 => exact hba h3
        · intro _
          simp [leChars, hab]
      · by_cases hba : b < a
        · constructor
          · intro h
            simp [leChars, hab, hba] at h
          · intro h
            exact absurd (List.Lex.rel hba) h
        · have heq : a = b := le_antisymm (not_lt.mp hba) (not_lt.mp hab)
          subst heq
          have hstep : leChars (a :: as) (a :: bs) = leChars as bs := by
            simp [leChars]
          rw [hstep, ih bs]
          constructor
          · intro h hlt
            cases hlt with
            | cons h2 => exact h h2
            | rel h3 => exact absurd h3 (lt_irrefl a)
          · intro h hlt
            exact h (List.Lex.cons hlt)

theorem leChars_iff (a b : String) : strLeB a b ↔ a ≤ b := by
  have h2 : (b < a) ↔ List.Lex (· < ·) b.data a.data := String.lt_iff_toList_lt
  show leChars a.data b.data = true ↔ ¬ b < a
  rw [h2]
  exact leChars_iff_not_lex a.data b.data

/-! ### Text aggregation -/

theorem structuredRetrieverText_eq_join (g : Graph) (names : List String) :
    structuredRetrieverText g names = String.join (names.map (entityText g)) := by
  unfold structuredRetrieverText String.join
  rw [List.foldl_map]

/-! ### Anchor congruence under case folding -/

theorem anchors_congr (g : Graph) {e1 e2 : String} (h : lowerStr e1 = lowerStr e2) :
    anchors g e1 = anchors g e2 := by
  unfold anchors
  apply List.filter_congr
  intro n _
  unfold matchesEntity
  rw [h]

/-! ### Walk lemmas and traversal completeness -/

theorem Walk.mem_rels {g : Graph} {a b : GNode} {ws : List Rel} (h : Walk g a b ws) :
    ∀ x ∈ ws, x ∈ g.rels := by
  induction h with
  | nil =>
    intro x hx
    cases hx
  | cons hmem hsrc htail ih =>
    intro x hx
    rcases List.mem_cons.mp hx with h1 | h2
    · exact h1 ▸ hmem
    · exact ih x h2

theorem Walk.append {g : Graph} {a b c : GNode} {ws1 ws2 : List Rel}
    (h1 : Walk g a b ws1) (h2 : Walk g b c ws2) : Walk g a c (ws1 ++ ws2) := by
  induction h1 with
  | nil => exact h2
  | cons hmem hsrc htail ih => exact Walk.cons hmem hsrc (ih h2)

theorem Walk.to_src {g : Graph} {a b : GNode} {ws : List Rel} (h : Walk g a b ws)
    {e : Rel} (he : e ∈ ws) : ∃ p, Walk g a e.src p := by
  induction h with
  | nil => exact absurd he (List.not_mem_nil e)
  | @cons a2 b2 r rs hmem hsrc htail ih =>
    rcases List.mem_cons.mp he with h1 | h2
    · refine ⟨[], ?_⟩
      have hes : e.src = a2 := by rw [h1, hsrc]
      rw [hes]
      exact Walk.nil a2
    · obtain ⟨p, hp⟩ := ih h2
      exact ⟨r :: p, Walk.cons hmem hsrc hp⟩

theorem Walk.after {g : Graph} {a b : GNode} {ws : List Rel} (h : Walk g a b ws)
    {e : Rel} (he : e ∈ ws) :
    ∃ ws2, Walk g e.tgt b ws2 ∧ (∀ x ∈ ws2, x ∈ ws) ∧ e ∉ ws2 := by
  induction h with
  | nil => exact absurd he (List.not_mem_nil e)
  | @cons a2 b2 r rs hmem hsrc htail ih =>
    by_cases h2 : e ∈ rs
    · obtain ⟨ws2, hw, hsub, hnot⟩ := ih h2
      exact ⟨ws2, hw, fun x hx => List.mem_cons_of_mem r (hsub x hx), hnot⟩
    · have h1 : e = r := by
        rcases List.mem_cons.mp he with h3 | h3
        · exact h3
        · exact absurd h3 h2
      refine ⟨rs, ?_, fun x hx => List.mem_cons_of_mem r hx, h2⟩
      rw [h1]
      exact htail

theorem count_eq_one_of_nodup_of_mem {α : Type} [BEq α] [LawfulBEq α] {l : List α} {a : α}
    (hn : l.Nodup) (ha : a ∈ l) : l.count a = 1 := by
  induction l with
  | nil => cases ha
  | cons b l ih =>
    have hcons := List.nodup_cons.mp hn
    rw [List.count_cons]
    rcases List.mem_cons.mp ha with h | h
    · subst h
      have h0 : l.count a = 0 := List.count_eq_zero.mpr hcons.1
      simp [h0]
    · have hba : (b == a) = false := by
        apply beq_eq_false_iff_ne.mpr
        intro hab
        apply hcons.1
        rw [hab]
        exact h
      simp [hba, ih hcons.2 h]

theorem length_filter_mono {p q : Rel → Bool} (l : List Rel)
    (h : ∀ x, p x = true → q x = true) :
    (l.filter p).length ≤ (l.filter q).length := by
  induction l with
  | nil => simp
  | cons a l ih =>
    rw [List.filter_cons, List.filter_cons]
    by_cases hp : p a = true
    · rw [if_pos hp, if_pos (h a hp)]
      simpa using ih
    · rw [if_neg hp]
      by_cases hq : q a = true
      · rw [if_pos hq]
        exact le_trans ih (Nat.le_succ _)
      · rw [if_neg hq]
        exact ih

theorem length_filter_avoid_lt (l : List Rel) (w : Rel) (used : List Rel)
    (hw : w ∈ l) (hwu : w ∉ used) :
    (l.filter (fun x => !decide (x ∈ w :: used))).length <
      (l.filter (fun x => !decide (x ∈ used))).length := by
  induction l with
  | nil => cases hw
  | cons a l ih =>
    rw [List.filter_cons, List.filter_cons]
    by_cases haw : a = w
    · subst haw
      rw [if_neg (by simp), if_pos (by simp [hwu])]
      have hm := length_filter_mono l
        (p := fun x => !decide (x ∈ a :: used)) (q := fun x => !decide (x ∈ used))
        (by
          intro x hx
          simp only [Bool.not_eq_eq_eq_not, Bool.not_true, decide_eq_false_iff_not,
            List.mem_cons, not_or] at hx ⊢
          exact hx.2)
      simp only [List.length_cons]
      omega
    · have hwl : w ∈ l := by
        rcases List.mem_cons.mp hw with h3 | h3
        · exact absurd h3.symm haw
        · exact h3
      by_cases hau : a ∈ used
      · rw [if_neg (by simp [hau]), if_neg (by simp [hau])]
        exact ih hwl
      · rw [if_pos (by simp [hau, haw]), if_pos (by simp [hau])]
        simpa using Nat.succ_lt_succ (ih hwl)

theorem mem_outRelsFrom (g : Graph) :
    ∀ (fuel : Nat) (used : List Rel) (cur u : GNode) (ws : List Rel) (r : Rel),
      Walk g cur u ws → (∀ x ∈ ws, x ∉ used) →
      r ∈ g.rels → r ∉ used → r.src = u →
      (g.rels.filter (fun x => !decide (x ∈ used))).length ≤ fuel →
      r ∈ outRelsFrom g fuel cur used := by
  intro fuel
  induction fuel with
  | zero =>
    intro used cur u ws r _ _ hr hru _ hlen
    exfalso
    have hmem : r ∈ g.rels.filter (fun x => !decide (x ∈ used)) :=
      List.mem_filter.2 ⟨hr, by simp [hru]⟩
    have h0 : g.rels.filter (fun x => !decide (x ∈ used)) ≠ [] := List.ne_nil_of_mem hmem
    have h1 : 0 < (g.rels.filter (fun x => !decide (x ∈ used))).length :=
      List.length_pos.2 h0
    omega
  | succ fuel ih =>
    intro used cur u ws r hw hav hr hru hsrc hlen
    cases hw with
    | nil =>
      simp only [outRelsFrom]
      apply List.mem_flatMap.2
      exact ⟨r, List.mem_filter.2 ⟨hr, by simp [hsrc, hru]⟩, List.mem_cons_self r _⟩
    | @cons _ _ w0 rest hmem hsrc0 htail =>
      have hw0u : w0 ∉ used := hav w0 (List.mem_cons_self w0 rest)
      by_cases hrw : r = w0
      · simp only [outRelsFrom]
        apply List.mem_flatMap.2
        refine ⟨w0, List.mem_filter.2 ⟨hmem, by simp [hsrc0, hw0u]⟩, ?_⟩
        rw [hrw]
        exact List.mem_cons_self w0 _
      · have hfull : Walk g cur u (w0 :: rest) := Walk.cons hmem hsrc0 htail
        obtain ⟨ws2, hws2, hsub, hnotw0⟩ := Walk.after hfull (List.mem_cons_self w0 rest)
        have hav2 : ∀ x ∈ ws2, x ∉ (w0 :: used) := by
          intro x hx
          have hxw : x ≠ w0 := fun hxx => hnotw0 (hxx ▸ hx)
          have hxu := hav x (hsub x hx)
          simp [hxw, hxu]
        have hru2 : r ∉ w0 :: used := by simp [hrw, hru]
        have hlt := length_filter_avoid_lt g.rels w0 used hmem hw0u
        have hlen2 : (g.rels.filter (fun x => !decide (x ∈ w0 :: used))).length ≤ fuel := by
          omega
        have hrec := ih (w0 :: used) w0.tgt u ws2 r hws2 hav2 hr hru2 hsrc hlen2
        simp only [outRelsFrom]
        apply List.mem_flatMap.2
        exact ⟨w0, List.mem_filter.2 ⟨hmem, by simp [hsrc0, hw0u]⟩,
          List.mem_cons_of_mem w0 hrec⟩

/-! ### Association list lookup lemmas -/

theorem lookup_append_some {m1 m2 : List (String × Nat)} {k : String} {v : Nat}
    (h : m1.lookup k = some v) : (m1 ++ m2).lookup k = some v := by
  rw [List.lookup_append, h]
  rfl

theorem lookup_append_none {m1 m2 : List (String × Nat)} {k : String}
    (h : m1.lookup k = none) : (m1 ++ m2).lookup k = m2.lookup k := by
  rw [List.lookup_append, h]
  simp

theorem lookup_single_self (k : String) (v : Nat) :
    ([(k, v)] : List (String × Nat)).lookup k = some v := by
  simp [List.lookup]

theorem mem_of_lookup_eq_some {m : List (String × Nat)} {k : String} {v : Nat}
    (h : m.lookup k = some v) : (k, v) ∈ m := by
  induction m with
  | nil => simp [List.lookup] at h
  | cons p m ih =>
    obtain ⟨a, b⟩ := p
    by_cases hk : k = a
    · subst hk
      simp [List.lookup] at h
      rw [h]
      exact List.mem_cons_self _ _
    · have hfalse : (k == a) = false := beq_eq_false_iff_ne.mpr hk
      simp [List.lookup, hfalse] at h
      exact List.mem_cons_of_mem _ (ih h)

theorem lookup_none_iff {m : List (String × Nat)} {k : String} :
    m.lookup k = none ↔ k ∉ m.map Prod.fst := by
  rw [List.lookup_eq_none_iff]
  constructor
  · intro h hk
    obtain ⟨p, hp, hfst⟩ := List.mem_map.mp hk
    have hne := h p hp
    simp [bne_iff_ne] at hne
    exact hne hfst.symm
  · intro h p hp
    simp only [bne_iff_ne, ne_eq]
    intro hkp
    exact h (hkp ▸ List.mem_map_of_mem Prod.fst hp)

/-! ### Invariant preservation of the get_graph_data loop -/

theorem addKey_relationships (st : GDState) (k : String) :
    (addKey st k).relationships = st.relationships := by
  unfold addKey
  split <;> rfl

theorem addKey_lookup_some (st : GDState) (k k2 : String) (v : Nat)
    (h : st.node_map.lookup k2 = some v) :
    (addKey st k).node_map.lookup k2 = some v := by
  unfold addKey
  split
  · exact h
  · exact lookup_append_some h

theorem addKey_lookup_self (st : GDState) (k : String) :
    ∃ v, (addKey st k).node_map.lookup k = some v := by
  unfold addKey
  split
  · next hs => exact Option.isSome_iff_exists.mp hs
  · next hs =>
    have hn : st.node_map.lookup k = none := Option.not_isSome_iff_eq_none.mp hs
    refine ⟨st.idx, ?_⟩
    show (st.node_map ++ [(k, st.idx)]).lookup k = some st.idx
    rw [lookup_append_none hn]
    exact lookup_single_self k st.idx

theorem addKey_lookup_fresh {st : GDState} (k : String)
    (hn : st.node_map.lookup k = none) :
    (addKey st k).node_map.lookup k = some st.idx := by
  unfold addKey
  rw [if_neg (by simp [hn])]
  show (st.node_map ++ [(k, st.idx)]).lookup k = some st.idx
  rw [lookup_append_none hn]
  exact lookup_single_self k st.idx

theorem addKey_node_map (st : GDState) (k : String) :
    (addKey st k).node_map = st.node_map ∨
    (st.node_map.lookup k = none ∧
      (addKey st k).node_map = st.node_map ++ [(k, st.idx)]) := by
  unfold addKey
  split
  · exact Or.inl rfl
  · next hs => exact Or.inr ⟨Option.not_isSome_iff_eq_none.mp hs, rfl⟩

theorem addKey_mem_mono {st : GDState} {p : String × Nat} (k : String)
    (h : p ∈ st.node_map) : p ∈ (addKey st k).node_map := by
  rcases addKey_node_map st k with h1 | ⟨_, h1⟩
  · rw [h1]
    exact h
  · rw [h1]
    exact List.mem_append_left _ h

theorem addKey_Inv {st : GDState} (h : Inv st) (k : String) : Inv (addKey st k) := by
  unfold addKey
  split
  · exact h
  · next hs =>
    have hn : st.node_map.lookup k = none := Option.not_isSome_iff_eq_none.mp hs
    have hk : k ∉ st.node_map.map Prod.fst := lookup_none_iff.mp hn
    obtain ⟨h1, h2, h3⟩ := h
    refine ⟨?_, ?_, ?_⟩
    · show st.idx + 1 = (st.node_map ++ [(k, st.idx)]).length
      simp [h1]
    · show (st.node_map ++ [(k, st.idx)]).map Prod.snd =
        List.range (st.node_map ++ [(k, st.idx)]).length
      simp [h2, h1, List.range_succ]
    · show ((st.node_map ++ [(k, st.idx)]).map Prod.fst).Nodup
      rw [List.map_append, List.nodup_append]
      refine ⟨h3, by simp, ?_⟩
      intro a ha hak
      simp at hak
      subst hak
      exact hk ha

theorem processRow_Inv {st : GDState} (h : Inv st) (row : GNode × String × GNode) :
    Inv (processRow st row) := by
  have h2 := addKey_Inv (addKey_Inv h row.1.id) row.2.2.id
  exact ⟨h2.1, h2.2.1, h2.2.2⟩

theorem processRow_unfold (st : GDState) (row : GNode × String × GNode) :
    ∃ vs vt,
      (addKey (addKey st row.1.id) row.2.2.id).node_map.lookup row.1.id = some vs ∧
      (addKey (addKey st row.1.id) row.2.2.id).node_map.lookup row.2.2.id = some vt ∧
      processRow st row =
        { addKey (addKey st row.1.id) row.2.2.id with
          relationships := (addKey (addKey st row.1.id) row.2.2.id).relationships ++
            [⟨vs, vt, row.2.1⟩] } := by
  obtain ⟨vs, hvs⟩ := addKey_lookup_self st row.1.id
  have hvs2 := addKey_lookup_some (addKey st row.1.id) row.2.2.id row.1.id vs hvs
  obtain ⟨vt, hvt⟩ := addKey_lookup_self (addKey st row.1.id) row.2.2.id
  refine ⟨vs, vt, hvs2, hvt, ?_⟩
  simp only [processRow]
  rw [hvs2, hvt]
  rfl

theorem processRow_Referenced {st : GDState} (_hI : Inv st) (hR : Referenced st)
    (row : GNode × String × GNode) : Referenced (processRow st row) := by
  obtain ⟨vs, vt, hvs, hvt, heq⟩ := processRow_unfold st row
  set st1 := addKey st row.1.id with hst1
  set st2 := addKey st1 row.2.2.id with hst2
  rw [heq]
  have hrels : st2.relationships = st.relationships := by
    rw [addKey_relationships, addKey_relationships]
  constructor
  · intro r hr
    rcases List.mem_append.mp hr with hold | hnew
    · rw [hrels] at hold
      obtain ⟨⟨k1, hk1⟩, k2, hk2⟩ := hR.1 r hold
      exact ⟨⟨k1, addKey_mem_mono _ (addKey_mem_mono _ hk1)⟩,
        k2, addKey_mem_mono _ (addKey_mem_mono _ hk2)⟩
    · simp at hnew
      subst hnew
      exact ⟨⟨row.1.id, mem_of_lookup_eq_some hvs⟩,
        row.2.2.id, mem_of_lookup_eq_some hvt⟩
  · intro p hp
    have hself : ∃ r ∈ st2.relationships ++ [(⟨vs, vt, row.2.1⟩ : VizRel)],
        r.source = vs ∨ r.target = vt → True := ⟨⟨vs, vt, row.2.1⟩, by simp, fun _ => trivial⟩
    rcases addKey_node_map st1 row.2.2.id with h2 | ⟨hn2, h2⟩
    · rw [h2] at hp
      rcases addKey_node_map st row.1.id with h1 | ⟨hn1, h1⟩
      · rw [h1] at hp
        obtain ⟨r, hrm, hror⟩ := hR.2 p hp
        exact ⟨r, List.mem_append_left _ (by rw [hrels]; exact hrm), hror⟩
      · rw [h1] at hp
        rcases List.mem_append.mp hp with hold | hnew
        · obtain ⟨r, hrm, hror⟩ := hR.2 p hold
          exact ⟨r, List.mem_append_left _ (by rw [hrels]; exact hrm), hror⟩
        · simp at hnew
          subst hnew
          have hfresh : st1.node_map.lookup row.1.id = some st.idx :=
            addKey_lookup_fresh row.1.id hn1
          have hfresh2 : st2.node_map.lookup row.1.id = some st.idx := by
            rw [hst2]
            exact addKey_lookup_some st1 row.2.2.id row.1.id st.idx hfresh
          have hvseq : vs = st.idx := Option.some_injective _ (hvs.symm.trans hfresh2)
          refine ⟨⟨vs, vt, row.2.1⟩, List.mem_append_right _ (by simp), ?_⟩
          left
          simp [hvseq]
    · rw [h2] at hp
      rcases List.mem_append.mp hp with hmid | hnew2
      · rcases addKey_node_map st row.1.id with h1 | ⟨hn1, h1⟩
        · rw [h1] at hmid
          obtain ⟨r, hrm, hror⟩ := hR.2 p hmid
          exact ⟨r, List.mem_append_left _ (by rw [hrels]; exact hrm), hror⟩
        · rw [h1] at hmid
          rcases List.mem_append.mp hmid with hold | hnew
          · obtain ⟨r, hrm, hror⟩ := hR.2 p hold
            exact ⟨r, List.mem_append_left _ (by rw [hrels]; exact hrm), hror⟩
          · simp at hnew
            subst hnew
            have hfresh : st1.node_map.lookup row.1.id = some st.idx :=
              addKey_lookup_fresh row.1.id hn1
            have hfresh2 : st2.node_map.lookup row.1.id = some st.idx := by
              rw [hst2]
              exact addKey_lookup_some st1 row.2.2.id row.1.id st.idx hfresh
            have hvseq : vs = st.idx := Option.some_injective _ (hvs.symm.trans hfresh2)
            refine ⟨⟨vs, vt, row.2.1⟩, List.mem_append_right _ (by simp), ?_⟩
            left
            simp [hvseq]
      · simp at hnew2
        subst hnew2
        have hfresh2 : st2.node_map.lookup row.2.2.id = some st1.idx := by
          rw [hst2]
          exact addKey_lookup_fresh row.2.2.id hn2
        have hvteq : vt = st1.idx := Option.some_injective _ (hvt.symm.trans hfresh2)
        refine ⟨⟨vs, vt, row.2.1⟩, List.mem_append_right _ (by simp), ?_⟩
        right
        simp [hvteq]

theorem initState_Inv : Inv initState :=
  ⟨rfl, rfl, List.nodup_nil⟩

theorem initState_Referenced : Referenced initState := by
  constructor
  · intro r hr
    cases hr
  · intro p hp
    cases hp

theorem lookup_lt_of_Inv {st : GDState} (h : Inv st) {k : String} {i : Nat}
    (hl : st.node_map.lookup k = some i) : i < st.node_map.length := by
  have hm := mem_of_lookup_eq_some hl
  have h2 : i ∈ st.node_map.map Prod.snd := List.mem_map_of_mem Prod.snd hm
  rw [h.2.1] at h2
  exact List.mem_range.mp h2

theorem lookup_snoc_cases {m : List (String × Nat)} {k k2 : String} {v i : Nat}
    (h : (m ++ [(k, v)]).lookup k2 = some i) :
    m.lookup k2 = some i ∨ (m.lookup k2 = none ∧ k2 = k ∧ i = v) := by
  cases hm : m.lookup k2 with
  | some j =>
    left
    have h2 := @lookup_append_some m [(k, v)] k2 j hm
    rw [h2] at h
    exact h
  | none =>
    right
    rw [lookup_append_none hm] at h
    by_cases hk : k2 = k
    · subst hk
      rw [lookup_single_self] at h
      exact ⟨rfl, rfl, (Option.some_injective _ h).symm⟩
    · exfalso
      have hfalse : (k2 == k) = false := beq_eq_false_iff_ne.mpr hk
      simp [List.lookup, hfalse] at h

theorem addKey_eq_self {st : GDState} {k : String}
    (h : (st.node_map.lookup k).isSome) : addKey st k = st := by
  unfold addKey
  rw [if_pos h]

theorem processRows_good (rows : List (GNode × String × GNode)) :
    ∀ st : GDState, Inv st → Referenced st →
      Inv (processRows rows st) ∧ Referenced (processRows rows st) := by
  induction rows with
  | nil => exact fun st hI hR => ⟨hI, hR⟩
  | cons row rows ih =>
    intro st hI hR
    exact ih (processRow st row) (processRow_Inv hI row) (processRow_Referenced hI hR row)

/-! ### Renumbering simulation for merged index retrieval -/

theorem getD_append_lt {φ ext : List Nat} {i : Nat} (h : i < φ.length) :
    (φ ++ ext).getD i 0 = φ.getD i 0 :=
  List.getD_append φ ext 0 i h

theorem getD_append_len {φ : List Nat} {j : Nat} :
    (φ ++ [j]).getD φ.length 0 = j := by
  rw [List.getD_append_right φ [j] 0 φ.length (le_refl _)]
  simp

theorem map_renum_extend {φ ext : List Nat} {l : List VizRel} (h : BoundedBy φ l) :
    l.map (renum (φ ++ ext)) = l.map (renum φ) := by
  apply List.map_congr_left
  intro r hr
  obtain ⟨h1, h2⟩ := h r hr
  unfold renum
  rw [getD_append_lt h1, getD_append_lt h2]

theorem addKey_sim {stA stB : GDState} {φ : List Nat} (k : String)
    (hIB : Inv stB) (hc : Corr stA stB φ) :
    ∃ ext, Corr (addKey stA k) (addKey stB k) (φ ++ ext) := by
  have hc1 := hc.1
  cases hB : stB.node_map.lookup k with
  | some i =>
    have hA : stA.node_map.lookup k = some (φ.getD i 0) := hc.2 k i hB
    have e1 : addKey stB k = stB := addKey_eq_self (by simp [hB])
    have e2 : addKey stA k = stA := addKey_eq_self (by simp [hA])
    refine ⟨[], ?_⟩
    rw [e1, e2, List.append_nil]
    exact hc
  | none =>
    have hmapB : (addKey stB k).node_map = stB.node_map ++ [(k, stB.idx)] := by
      unfold addKey
      rw [if_neg (by simp [hB])]
    have hidxB : stB.idx = φ.length := by
      have h1 := hIB.1
      omega
    cases hA : stA.node_map.lookup k with
    | some j =>
      have e2 : addKey stA k = stA := addKey_eq_self (by simp [hA])
      refine ⟨[j], ⟨?_, ?_⟩⟩
      · rw [hmapB]
        simp only [List.length_append, List.length_cons, List.length_nil]
        omega
      · intro k2 i2 h2
        rw [hmapB] at h2
        rcases lookup_snoc_cases h2 with hm | ⟨hm, hkk, hiv⟩
        · have hlt : i2 < φ.length := by
            have h3 := lookup_lt_of_Inv hIB hm
            omega
          rw [e2, getD_append_lt hlt]
          exact hc.2 k2 i2 hm
        · subst hkk
          rw [e2, hiv, hidxB, getD_append_len]
          exact hA
    | none =>
      have hmapA : (addKey stA k).node_map = stA.node_map ++ [(k, stA.idx)] := by
        unfold addKey
        rw [if_neg (by simp [hA])]
      refine ⟨[stA.idx], ⟨?_, ?_⟩⟩
      · rw [hmapB]
        simp only [List.length_append, List.length_cons, List.length_nil]
        omega
      · intro k2 i2 h2
        rw [hmapB] at h2
        rcases lookup_snoc_cases h2 with hm | ⟨hm, hkk, hiv⟩
        · have hlt : i2 < φ.length := by
            have h3 := lookup_lt_of_Inv hIB hm
            omega
          rw [hmapA, getD_append_lt hlt]
          exact lookup_append_some (hc.2 k2 i2 hm)
        · subst hkk
          rw [hmapA, hiv, hidxB, getD_append_len]
          rw [lookup_append_none hA]
          exact lookup_single_self k2 stA.idx

theorem processRow_sim {stA stB : GDState} {φ : List Nat} {base : List VizRel}
    (row : GNode × String × GNode)
    (hIA : Inv stA) (hIB : Inv stB) (hc : Corr stA stB φ)
    (hrels : stA.relationships = base ++ stB.relationships.map (renum φ))
    (hbnd : BoundedBy φ stB.relationships) :
    ∃ φ2 ext, φ2 = φ ++ ext ∧
      Corr (processRow stA row) (processRow stB row) φ2 ∧
      (processRow stA row).relationships =
        base ++ (processRow stB row).relationships.map (renum φ2) ∧
      BoundedBy φ2 (processRow stB row).relationships := by
  obtain ⟨ext1, hcs1⟩ := addKey_sim row.1.id hIB hc
  have hIA1 := addKey_Inv hIA row.1.id
  have hIB1 := addKey_Inv hIB row.1.id
  obtain ⟨ext2, hcs2⟩ := addKey_sim row.2.2.id hIB1 hcs1
  have hIB2 := addKey_Inv hIB1 row.2.2.id
  obtain ⟨vsA, vtA, hvsA, hvtA, heqA⟩ := processRow_unfold stA row
  obtain ⟨vsB, vtB, hvsB, hvtB, heqB⟩ := processRow_unfold stB row
  refine ⟨(φ ++ ext1) ++ ext2, ext1 ++ ext2, by rw [List.append_assoc], ?_, ?_, ?_⟩
  · rw [heqA, heqB]
    exact hcs2
  · have hvsAval : vsA = ((φ ++ ext1) ++ ext2).getD vsB 0 :=
      Option.some_injective _ (hvsA.symm.trans (hcs2.2 row.1.id vsB hvsB))
    have hvtAval : vtA = ((φ ++ ext1) ++ ext2).getD vtB 0 :=
      Option.some_injective _ (hvtA.symm.trans (hcs2.2 row.2.2.id vtB hvtB))
    rw [heqA, heqB]
    show (addKey (addKey stA row.1.id) row.2.2.id).relationships ++
        [(⟨vsA, vtA, row.2.1⟩ : VizRel)] =
      base ++ ((addKey (addKey stB row.1.id) row.2.2.id).relationships ++
        [(⟨vsB, vtB, row.2.1⟩ : VizRel)]).map (renum ((φ ++ ext1) ++ ext2))
    rw [addKey_relationships, addKey_relationships, addKey_relationships,
      addKey_relationships, List.map_append, hrels]
    have hstable : stB.relationships.map (renum ((φ ++ ext1) ++ ext2)) =
        stB.relationships.map (renum φ) := by
      rw [List.append_assoc]
      exact map_renum_extend hbnd
    rw [hstable, List.append_assoc]
    congr 1
    congr 1
    simp only [List.map_cons, List.map_nil]
    unfold renum
    rw [← hvsAval, ← hvtAval]
  · rw [heqB]
    intro r hr
    show r.source < ((φ ++ ext1) ++ ext2).length ∧ r.target < ((φ ++ ext1) ++ ext2).length
    rcases List.mem_append.mp hr with hold | hnew
    · rw [addKey_relationships, addKey_relationships] at hold
      obtain ⟨h1, h2⟩ := hbnd r hold
      simp only [List.length_append]
      omega
    · simp at hnew
      subst hnew
      refine ⟨?_, ?_⟩
      · show vsB < ((φ ++ ext1) ++ ext2).length
        have h1 := lookup_lt_of_Inv hIB2 hvsB
        have h2 := hcs2.1
        omega
      · show vtB < ((φ ++ ext1) ++ ext2).length
        have h1 := lookup_lt_of_Inv hIB2 hvtB
        have h2 := hcs2.1
        omega

theorem processRows_sim (rows : List (GNode × String × GNode)) :
    ∀ (stA stB : GDState) (φ : List Nat) (base : List VizRel),
      Inv stA → Inv stB → Corr stA stB φ →
      stA.relationships = base ++ stB.relationships.map (renum φ) →
      BoundedBy φ stB.relationships →
      ∃ φ2, Corr (processRows rows stA) (processRows rows stB) φ2 ∧
        (processRows rows stA).relationships =
          base ++ (processRows rows stB).relationships.map (renum φ2) ∧
        BoundedBy φ2 (processRows rows stB).relationships := by
  induction rows with
  | nil =>
    intro stA stB φ base _ _ hc hr hb
    exact ⟨φ, hc, hr, hb⟩
  | cons row rows ih =>
    intro stA stB φ base hIA hIB hc hr hb
    obtain ⟨φ2, ext, _, hc2, hr2, hb2⟩ := processRow_sim row hIA hIB hc hr hb
    exact ih (processRow stA row) (processRow stB row) φ2 base
      (processRow_Inv hIA row) (processRow_Inv hIB row) hc2 hr2 hb2

/-! ### Claim theorems -/

/-- Claim C1: on the graph with nodes A, B, C and the two edges
A -WORKS_FOR-> B and B -LOCATED_IN-> C, textual retrieval for the single
entity A yields the two relationship lines, discovered by unbounded
outbound traversal from A and sorted lexicographically, followed by the
grandparent line reporting C. -/
theorem claim_C1_end_to_end :
    structuredRetrieverText gABC ["A"] =
      "A -[WORKS_FOR]-> B\nB -[LOCATED_IN]-> C\nGrandparent id of A: C\n" ∧
    relationLines gABC "A" = ["A -[WORKS_FOR]-> B", "B -[LOCATED_IN]-> C"] ∧
    grandparentLine gABC "A" = "Grandparent id of A: C\n" := by
  decide

/-- Claim C2 counterexample: the two entity spellings ACME and acme are
equal after case folding, yet the textual retrieval results differ,
because the grandparent probe line echoes the entity name verbatim. -/
theorem claim_C2_counterexample :
    lowerStr "ACME" = lowerStr "acme" ∧
    structuredRetrieverText gAcme ["ACME"] ≠ structuredRetrieverText gAcme ["acme"] := by
  decide

/-- Claim C2 (amended): entity names that are equal after case folding
resolve to the same anchor node set — node resolution matches exactly the
graph nodes whose id case folds to the entity name case folded — and all
store query results (relationship lines, row set, index form data) are
equal; only the textual lines that echo the entity name verbatim (the no
match line and the grandparent line) can differ. -/
theorem claim_C2_caseFold (g : Graph) (e1 e2 : String) (h : lowerStr e1 = lowerStr e2) :
    anchors g e1 = anchors g e2 ∧
    (∀ n, n ∈ anchors g e1 ↔ n ∈ g.nodes ∧ lowerStr n.id = lowerStr e1) ∧
    relationLines g e1 = relationLines g e2 ∧
    graphRows g e1 = graphRows g e2 ∧
    getGraphData g e1 = getGraphData g e2 := by
  have ha := anchors_congr g h
  refine ⟨ha, ?_, ?_, ?_, ?_⟩
  · intro n
    simp [anchors, List.mem_filter, matchesEntity]
  · unfold relationLines outRels inRels
    rw [ha]
  · unfold graphRows outRels inRels
    rw [ha]
  · unfold getGraphData graphRows outRels inRels
    rw [ha]

/-- Claim C2 witness: the amended statement at the concrete graph with a
node Acme, for the spellings ACME and acme. -/
theorem claim_C2_caseFold_witness :
    anchors gAcme "ACME" = anchors gAcme "acme" ∧
    relationLines gAcme "ACME" = relationLines gAcme "acme" ∧
    getGraphData gAcme "ACME" = getGraphData gAcme "acme" := by
  have h := claim_C2_caseFold gAcme "ACME" "acme" (by decide)
  exact ⟨h.1, h.2.2.1, h.2.2.2.2⟩

/-- Claim C4 counterexample: for the graph whose only node Ghost is
isolated, an anchor node is found, yet the no match line is still
produced (the relationship query returns no rows), and the per entity
contribution moreover carries a grandparent probe line. -/
theorem claim_C4_counterexample :
    anchors gIso "Ghost" ≠ [] ∧
    relSection gIso "Ghost" = "No relationships found for entity: Ghost\n" ∧
    entityText gIso "Ghost" =
      "No relationships found for entity: Ghost\nNo grandparent found for Ghost\n" := by
  decide

/-- Claim C4 (amended): when no anchor node matches the entity, the
relationship query returns no rows, the entity contributes the no match
line followed by the no grandparent line (and no relationship lines) to
the text form, and contributes nothing to the index form; the no match
line is produced exactly when the relationship query returns no rows,
which also happens for an anchor with no incident traversal, so the line
is not limited to the unmatched entity case. -/
theorem claim_C4_noMatch (g : Graph) (e : String) :
    (anchors g e = [] →
      relationLines g e = [] ∧
      entityText g e =
        "No relationships found for entity: " ++ e ++ "\n" ++
          ("No grandparent found for " ++ e ++ "\n") ∧
      getGraphData g e = initState) ∧
    (relationLines g e = [] →
      relSection g e = "No relationships found for entity: " ++ e ++ "\n") ∧
    (relationLines g e ≠ [] →
      relSection g e = String.intercalate "\n" (relationLines g e) ++ "\n") := by
  refine ⟨?_, ?_, ?_⟩
  · intro h
    have hout : outRels g e = [] := by simp [outRels, h]
    have hin : inRels g e = [] := by simp [inRels, h]
    have hlines : relationLines g e = [] := by
      simp [relationLines, hout, hin, List.insertionSort]
    refine ⟨hlines, ?_, ?_⟩
    · unfold entityText relSection grandparentLine grandparents
      rw [hlines, h]
      simp
    · unfold getGraphData graphRows
      rw [hout, hin]
      simp [processRows]
  · intro h
    simp [relSection, h]
  · intro h
    simp [relSection, h]

/-- Claim C4 witness: the amended statement at the empty graph for the
entity Ghost. -/
theorem claim_C4_noMatch_witness :
    relationLines gEmpty "Ghost" = [] ∧
    entityText gEmpty "Ghost" =
      "No relationships found for entity: " ++ "Ghost" ++ "\n" ++
        ("No grandparent found for " ++ "Ghost" ++ "\n") ∧
    getGraphData gEmpty "Ghost" = initState :=
  (claim_C4_noMatch gEmpty "Ghost").1 (by decide)

/-- Claim C5: the relationship lines of the textual form are sorted by the
standard lexicographic order on the rendered strings, as one total order
over the deduplicated union of the outbound and inbound rows. -/
theorem claim_C5_sorted (g : Graph) (e : String) :
    List.Sorted (· ≤ ·) (relationLines g e) ∧
    (relationLines g e).Perm
      ((((outRels g e).map renderRel) ++ ((inRels g e).map renderRel)).dedup) := by
  constructor
  · haveI htot : IsTotal String strLeB := ⟨fun a b => by
      rcases le_total a b with h | h
      · exact Or.inl ((leChars_iff a b).mpr h)
      · exact Or.inr ((leChars_iff b a).mpr h)⟩
    haveI htr : IsTrans String strLeB := ⟨fun a b c hab hbc =>
      (leChars_iff a c).mpr (le_trans ((leChars_iff a b).mp hab) ((leChars_iff b c).mp hbc))⟩
    have hs := List.sorted_insertionSort strLeB
      ((((outRels g e).map renderRel) ++ ((inRels g e).map renderRel)).dedup)
    exact List.Pairwise.imp (fun h => (leChars_iff _ _).mp h) hs
  · exact List.perm_insertionSort strLeB _

/-- Claim C6: in every index form retrieval result, the node map stores
the dense indices 0..n-1 in first seen insertion order, every source and
target index of the relationship list has a node map entry, and every
node map entry is referenced by some relationship entry (nodes are added
only when first referenced). -/
theorem claim_C6_index_invariants (g : Graph) (e : String) :
    (getGraphData g e).node_map.map Prod.snd =
      List.range (getGraphData g e).node_map.length ∧
    (∀ r ∈ (getGraphData g e).relationships,
      (∃ k, (k, r.source) ∈ (getGraphData g e).node_map) ∧
      ∃ k, (k, r.target) ∈ (getGraphData g e).node_map) ∧
    ∀ p ∈ (getGraphData g e).node_map,
      ∃ r ∈ (getGraphData g e).relationships, r.source = p.2 ∨ r.target = p.2 := by
  have hIR := processRows_good (graphRows g e) initState initState_Inv initState_Referenced
  exact ⟨hIR.1.2.1, hIR.2.1, hIR.2.2⟩

/-- Claim C7: the textual retrieval for a list of entities is the
concatenation, in input order, of the per entity texts; and the index
form result for two entities is the order preserving
concatenation-then-merge of the single entity results: continuing the
merge loop on the second row set, whose relationship list equals the
first result followed by the second result renumbered into the shared
node index map. -/
theorem claim_C7_aggregation (g : Graph) (e1 e2 : String) :
    (∀ names, structuredRetrieverText g names =
      String.join (names.map (entityText g))) ∧
    retrieveIndex g [e1, e2] =
      processRows (graphRows g e2) (retrieveIndex g [e1]) ∧
    ∃ φ : List Nat,
      (retrieveIndex g [e1, e2]).relationships =
        (retrieveIndex g [e1]).relationships ++
          (retrieveIndex g [e2]).relationships.map (renum φ) ∧
      ∀ k i, (retrieveIndex g [e2]).node_map.lookup k = some i →
        (retrieveIndex g [e1, e2]).node_map.lookup k = some (φ.getD i 0) := by
  have hsingle1 : retrieveIndex g [e1] = processRows (graphRows g e1) initState := by
    unfold retrieveIndex
    rw [List.flatMap_cons, List.flatMap_nil, List.append_nil]
  have hsingle2 : retrieveIndex g [e2] = processRows (graphRows g e2) initState := by
    unfold retrieveIndex
    rw [List.flatMap_cons, List.flatMap_nil, List.append_nil]
  have hsplit : retrieveIndex g [e1, e2] =
      processRows (graphRows g e2) (retrieveIndex g [e1]) := by
    rw [hsingle1]
    unfold retrieveIndex processRows
    rw [List.flatMap_cons, List.flatMap_cons, List.flatMap_nil, List.append_nil,
      List.foldl_append]
  refine ⟨structuredRetrieverText_eq_join g, hsplit, ?_⟩
  have hIA : Inv (retrieveIndex g [e1]) := by
    rw [hsingle1]
    exact (processRows_good (graphRows g e1) initState initState_Inv initState_Referenced).1
  have hcorr0 : Corr (retrieveIndex g [e1]) initState [] := by
    refine ⟨rfl, ?_⟩
    intro k i h
    simp [initState, List.lookup] at h
  have hbnd0 : BoundedBy [] initState.relationships := by
    intro r hr
    cases hr
  obtain ⟨φ2, hc2, hr2, _⟩ := processRows_sim (graphRows g e2)
    (retrieveIndex g [e1]) initState [] (retrieveIndex g [e1]).relationships
    hIA initState_Inv hcorr0 (by simp [initState]) hbnd0
  refine ⟨φ2, ?_, ?_⟩
  · rw [hsplit, hsingle2]
    exact hr2
  · intro k i h
    rw [hsingle2] at h
    rw [hsplit]
    exact hc2.2 k i h

/-- Claim C8: an entity extraction error propagates out of the structured
retriever and the chain uncaught; the question pipeline surfaces the
failed request (the error text is appended to the chat and returned as
status, nothing else runs) instead of falling back to a default entity
list or a degraded answer. -/
theorem claim_C8_extraction_error (ext : String → Except String (List String))
    (synth : String → String → Except String String) (g : Graph) (q : String)
    (hist : List (String × String)) (err : String) (h : ext q = .error err) :
    structuredRetrieverE ext g q = .error err ∧
    chainE ext synth g q = .error err ∧
    generateGraphVisualization ext g q =
      (none, "❌ Error generating graph: " ++ err, false) ∧
    (pyStrip q ≠ "" → processUnifiedQuery ext synth g q hist =
      ⟨hist ++ [(q, "❌ Error: " ++ err)], "", none, "❌ Error: " ++ err, false, ""⟩) := by
  have h1 : structuredRetrieverE ext g q = .error err := by
    simp [structuredRetrieverE, h]
  have h2 : chainE ext synth g q = .error err := by
    simp [chainE, h1]
  refine ⟨h1, h2, ?_, ?_⟩
  · simp [generateGraphVisualization, h]
  · intro hq
    unfold processUnifiedQuery
    rw [if_neg hq, h2]

/-- Claim C8 witness: the statement at a failing extractor, an arbitrary
synthesizer, the empty graph and a nonblank question. -/
theorem claim_C8_extraction_error_witness :
    structuredRetrieverE extFail gEmpty "q" = .error "boom" ∧
    processUnifiedQuery extFail synthEcho gEmpty "q" [] =
      ⟨[("q", "❌ Error: " ++ "boom")], "", none, "❌ Error: " ++ "boom", false, ""⟩ := by
  have h := claim_C8_extraction_error extFail synthEcho gEmpty "q" [] "boom" rfl
  exact ⟨h.1, by simpa using h.2.2.2 (by decide)⟩

/-- Claim C9: the visualization path anchors on exactly one entity, the
first extracted name, with the fixed sentinel Youtube when the extracted
list is empty, while the textual context path iterates over every
extracted entity. -/
theorem claim_C9_primary_entity (ext : String → Except String (List String))
    (g : Graph) (q : String) :
    (∀ e rest, ext q = .ok (e :: rest) →
      generateGraphVisualization ext g q = vizForEntity g e) ∧
    (ext q = .ok [] →
      generateGraphVisualization ext g q = vizForEntity g "Youtube") ∧
    (∀ names, ext q = .ok names →
      structuredRetrieverE ext g q = .ok (String.join (names.map (entityText g)))) := by
  refine ⟨?_, ?_, ?_⟩
  · intro e rest h
    simp [generateGraphVisualization, h]
  · intro h
    simp [generateGraphVisualization, h]
  · intro names h
    simp [structuredRetrieverE, h, structuredRetrieverText_eq_join]

/-- Claim C9 witness: with extracted names A and B the visualization
queries only A while the text covers both names; with no extracted names
the visualization falls back to Youtube. -/
theorem claim_C9_primary_entity_witness :
    generateGraphVisualization extAB gEmpty "q" = vizForEntity gEmpty "A" ∧
    generateGraphVisualization extEmpty gEmpty "q" = vizForEntity gEmpty "Youtube" ∧
    structuredRetrieverE extAB gEmpty "q" =
      .ok (String.join (["A", "B"].map (entityText gEmpty))) := by
  refine ⟨(claim_C9_primary_entity extAB gEmpty "q").1 "A" ["B"] rfl,
    (claim_C9_primary_entity extEmpty gEmpty "q").2.1 rfl,
    (claim_C9_primary_entity extAB gEmpty "q").2.2 ["A", "B"] rfl⟩

/-- Claim C10: a question that is empty or whitespace only is rejected by
process_unified_query before any extraction, store query or synthesis:
the chat history is returned unchanged together with a warning status,
for every extractor and synthesizer. -/
theorem claim_C10_blank_guard (ext : String → Except String (List String))
    (synth : String → String → Except String String) (g : Graph) (q : String)
    (hist : List (String × String)) (h : pyStrip q = "") :
    processUnifiedQuery ext synth g q hist =
      ⟨hist, "", none, "⚠️ Please enter a question", false, ""⟩ := by
  simp [processUnifiedQuery, h]

/-- Claim C3: for every graph with a directed cycle reachable from an
anchor node of the entity, the traversal (embedded as a total function,
hence terminating) produces a duplicate free row set in which every
relationship on the cycle appears exactly once, relationship identity
being the row triple of source node, type and target node. -/
theorem claim_C3_cycle (g : Graph) (ename : String) (n v : GNode) (p cs : List Rel)
    (hn : n ∈ anchors g ename) (hp : Walk g n v p) (hc : Walk g v v cs) (_hcs : cs ≠ []) :
    (graphRows g ename).Nodup ∧
    ∀ e ∈ cs, (graphRows g ename).count (relTriple e) = 1 := by
  refine ⟨List.nodup_dedup _, ?_⟩
  intro e he
  obtain ⟨pr, hpr⟩ := Walk.to_src hc he
  have hwalk : Walk g n e.src (p ++ pr) := Walk.append hp hpr
  have hemem : e ∈ g.rels := Walk.mem_rels hc e he
  have hav : ∀ x ∈ (p ++ pr), x ∉ ([] : List Rel) := by simp
  have hlen : (g.rels.filter (fun x => !decide (x ∈ ([] : List Rel)))).length ≤
      g.rels.length := List.length_filter_le _ _
  have hout : e ∈ outRelsFrom g g.rels.length n [] :=
    mem_outRelsFrom g g.rels.length [] n e.src (p ++ pr) e hwalk hav hemem (by simp) rfl hlen
  have ho : e ∈ outRels g ename :=
    List.mem_dedup.2 (List.mem_flatMap.2 ⟨n, hn, hout⟩)
  have hrow : relTriple e ∈ graphRows g ename :=
    List.mem_dedup.2 (List.mem_append.2 (Or.inl (List.mem_map_of_mem relTriple ho)))
  exact count_eq_one_of_nodup_of_mem (List.nodup_dedup _) hrow

/-- Claim C3 witness: the two node cycle A to B to A anchored at A; both
cycle relationships are counted exactly once in the deduplicated rows. -/
theorem claim_C3_cycle_witness :
    (graphRows gCyc "A").Nodup ∧
    (graphRows gCyc "A").count (relTriple rc0) = 1 ∧
    (graphRows gCyc "A").count (relTriple rc1) = 1 := by
  have hwc : Walk gCyc cycA cycA [rc0, rc1] :=
    Walk.cons (by decide) rfl (Walk.cons (by decide) rfl (Walk.nil cycA))
  have h := claim_C3_cycle gCyc "A" cycA cycA [] [rc0, rc1]
    (by decide) (Walk.nil cycA) hwc (by decide)
  exact ⟨h.1, h.2 rc0 (by decide), h.2 rc1 (by decide)⟩

/-- Claim C10 witness: the guard at a whitespace only question. -/
theorem claim_C10_blank_guard_witness :
    processUnifiedQuery extFail synthFail gEmpty "  " [("a", "b")] =
      ⟨[("a", "b")], "", none, "⚠️ Please enter a question", false, ""⟩ :=
  claim_C10_blank_guard extFail synthFail gEmpty "  " [("a", "b")] (by decide)

end GraphRAG
